import Mathlib

set_option maxRecDepth 8000

/-!
Verification of the FastCDC content-defined chunker
(`none/hash/cdc/fastcdc.py`) and the mutable Merkle hash tree
(`none/hash/tree.py`).

Byte strings are modelled as `List Nat` (each entry a byte value), the
gear table as a `List Nat` of 64-bit words (looked up with `List.getD`,
total on the 256-entry tables the library uses), and 64-bit machine
arithmetic as `Nat` arithmetic reduced modulo `2 ^ 64`.  Imperative
loops are translated to structural recursion: the bounded index walk in
`find` becomes a recursion over its list of indices, and the chunking
loop of `split` carries a fuel argument that strictly dominates its trip
count, so every definition evaluates inside the kernel.
-/

/-- FastCDC minimum chunk size: 2KB. -/
def GHASH_CHUNK_LO : Nat := 2048

/-- FastCDC average chunk size: 8KB. -/
def GHASH_CHUNK_MD : Nat := 8192

/-- FastCDC maximum chunk size: 64KB. -/
def GHASH_CHUNK_HI : Nat := 65536

/-- FastCDC Gear hash low-end mask value, with 15 bits set to 1. -/
def GHASH_MASK_LO : Nat := 0x0003590703530000

/-- FastCDC Gear hash middle-end mask value, with 13 bits set to 1. -/
def GHASH_MASK_MD : Nat := 0x0000D90303530000

/-- FastCDC Gear hash high-end mask value, with 11 bits set to 1. -/
def GHASH_MASK_HI : Nat := 0x0000D90003530000

/-- Gear rolling hash step: `((h << 1) + gear) & 0xFFFFFFFFFFFFFFFF` where
`gear` is the table entry for the byte, optionally XORed with the seed. -/
def ghash (h ch : Nat) (table : List Nat) (seed : Option Nat) : Nat :=
  let gear := match seed with
    | none => table.getD ch 0
    | some s => (table.getD ch 0) ^^^ s
  ((h <<< 1) + gear) % (2 ^ 64)

/-- One phase of the `find` scanning loop
(`while idx < sentinel: h = ghash(h, data[idx]); if not h & mask: return idx;
idx += 1`), recursing over the list of indices the loop visits (the caller
passes `List.range' idx (sentinel - idx)`).  Returns `Sum.inl i` when the
mask matched at index `i` (the early return) and `Sum.inr (h, idx)` with
the final hash state and final index when the loop ran out. -/
def findLoop (data table : List Nat) (seed : Option Nat) (mask : Nat) :
    Nat → Nat → List Nat → Nat ⊕ (Nat × Nat)
  | h, idx, [] => Sum.inr (h, idx)
  | h, _, i :: rest =>
    let h2 := ghash h (data.getD i 0) table seed
    if h2 &&& mask = 0 then Sum.inl i
    else findLoop data table seed mask h2 (i + 1) rest

/-- The mask-switch sentinel of `find`: `GHASH_CHUNK_MD`, lowered to the
data size when the data is shorter than the average chunk size (and not
long enough to reach `GHASH_CHUNK_HI`). -/
def sentinelMd (dataSize : Nat) : Nat :=
  if GHASH_CHUNK_HI ≤ dataSize then GHASH_CHUNK_MD
  else if dataSize ≤ GHASH_CHUNK_MD then dataSize
  else GHASH_CHUNK_MD

/-- The scan-end sentinel of `find`: the data size, capped at
`GHASH_CHUNK_HI`. -/
def sentinelHi (dataSize : Nat) : Nat :=
  if GHASH_CHUNK_HI ≤ dataSize then GHASH_CHUNK_HI else dataSize

/-- Find the next FastCDC cutting point within given data.  Faithful to
`find` in `fastcdc.py`: short data returns its own length; otherwise the
two sentinel/mask phases run in order, sharing the rolling hash state and
scan index, and the final index is returned when no mask ever matched. -/
def find (data table : List Nat) (seed : Option Nat) : Nat :=
  if data.length ≤ GHASH_CHUNK_LO then data.length
  else
    match findLoop data table seed GHASH_MASK_LO 0 GHASH_CHUNK_LO
        (List.range' GHASH_CHUNK_LO (sentinelMd data.length - GHASH_CHUNK_LO)) with
    | Sum.inl i => i
    | Sum.inr (h1, idx1) =>
      match findLoop data table seed GHASH_MASK_HI h1 idx1
          (List.range' idx1 (sentinelHi data.length - idx1)) with
      | Sum.inl i => i
      | Sum.inr (_, idx2) => idx2

theorem sentinelMd_eq (n : Nat) : sentinelMd n = min GHASH_CHUNK_MD n := by
  unfold sentinelMd
  have hMD : GHASH_CHUNK_MD = 8192 := rfl
  have hHI : GHASH_CHUNK_HI = 65536 := rfl
  split
  · omega
  · split <;> omega

theorem sentinelHi_eq (n : Nat) : sentinelHi n = min GHASH_CHUNK_HI n := by
  unfold sentinelHi
  split <;> omega

/-- Accumulated gear hash after consuming the bytes at indices
`GHASH_CHUNK_LO, …, i - 1` (the rolling state `h` held by `find` when its
scanning index is `i`). -/
def gacc (data table : List Nat) (seed : Option Nat) : Nat → Nat
  | 0 => 0
  | i + 1 =>
    if i < GHASH_CHUNK_LO then 0
    else ghash (gacc data table seed i) (data.getD i 0) table seed

/-- The scan accepts a cut at index `i` for `mask` exactly when the rolling
hash, updated through `data[i]`, masks to zero. -/
def cutAt (data table : List Nat) (seed : Option Nat) (mask i : Nat) : Bool :=
  gacc data table seed (i + 1) &&& mask == 0

theorem gacc_of_le {data table : List Nat} {seed : Option Nat} {i : Nat}
    (h : i ≤ GHASH_CHUNK_LO) : gacc data table seed i = 0 := by
  cases i with
  | zero => rfl
  | succ j => simp only [gacc, if_pos (by omega : j < GHASH_CHUNK_LO)]

theorem gacc_succ {data table : List Nat} {seed : Option Nat} {i : Nat}
    (h : GHASH_CHUNK_LO ≤ i) :
    gacc data table seed (i + 1) =
      ghash (gacc data table seed i) (data.getD i 0) table seed := by
  simp only [gacc, if_neg (by omega : ¬ i < GHASH_CHUNK_LO)]

/-- The scanning loop returns the first visited index whose rolling hash
masks to zero, or the carried hash state at the final index. -/
theorem findLoop_spec (data table : List Nat) (seed : Option Nat) (mask : Nat) :
    ∀ n idx, GHASH_CHUNK_LO ≤ idx →
    findLoop data table seed mask (gacc data table seed idx) idx (List.range' idx n) =
      match (List.range' idx n).find? (cutAt data table seed mask) with
      | some j => Sum.inl j
      | none => Sum.inr (gacc data table seed (idx + n), idx + n) := by
  intro n
  induction n with
  | zero =>
    intro idx hidx
    simp [findLoop]
  | succ n ih =>
    intro idx hidx
    rw [List.range'_succ]
    simp only [findLoop]
    have hstep := @gacc_succ data table seed idx hidx
    rw [← hstep]
    by_cases hcut : gacc data table seed (idx + 1) &&& mask = 0
    · simp only [if_pos hcut]
      have : cutAt data table seed mask idx = true := by
        simp [cutAt, hcut]
      simp [List.find?, this]
    · simp only [if_neg hcut]
      have hcf : cutAt data table seed mask idx = false := by
        simp [cutAt, hcut]
      have hrec := ih (idx + 1) (by omega)
      rw [hrec]
      have harith : idx + 1 + n = idx + (n + 1) := by omega
      simp [List.find?, hcf, harith]

/-- Characterization of `find` used by several theorems below: short data
returns its length; otherwise the first `MASK_LO` cut in
`[LO, min MD n)`, else the first `MASK_HI` cut in `[min MD n, min HI n)`,
else `min HI n`. -/
theorem find_characterization (data table : List Nat) (seed : Option Nat) :
    (data.length ≤ GHASH_CHUNK_LO → find data table seed = data.length) ∧
    (GHASH_CHUNK_LO < data.length →
      find data table seed =
        match (List.range' GHASH_CHUNK_LO (min GHASH_CHUNK_MD data.length - GHASH_CHUNK_LO)).find?
            (cutAt data table seed GHASH_MASK_LO) with
        | some j => j
        | none =>
          match (List.range' (min GHASH_CHUNK_MD data.length)
              (min GHASH_CHUNK_HI data.length - min GHASH_CHUNK_MD data.length)).find?
              (cutAt data table seed GHASH_MASK_HI) with
          | some j => j
          | none => min GHASH_CHUNK_HI data.length) := by
  constructor
  · intro hle
    unfold find
    rw [if_pos hle]
  · intro hgt
    have hMD : GHASH_CHUNK_MD = 8192 := rfl
    have hLO : GHASH_CHUNK_LO = 2048 := rfl
    have hHI : GHASH_CHUNK_HI = 65536 := rfl
    unfold find
    rw [if_neg (show ¬ data.length ≤ GHASH_CHUNK_LO by omega)]
    rw [sentinelMd_eq, sentinelHi_eq]
    have h0 : (0 : Nat) = gacc data table seed GHASH_CHUNK_LO :=
      (gacc_of_le (le_refl _)).symm
    rw [h0, findLoop_spec data table seed GHASH_MASK_LO
      (min GHASH_CHUNK_MD data.length - GHASH_CHUNK_LO) GHASH_CHUNK_LO (le_refl _)]
    cases hf1 : (List.range' GHASH_CHUNK_LO
        (min GHASH_CHUNK_MD data.length - GHASH_CHUNK_LO)).find?
        (cutAt data table seed GHASH_MASK_LO) with
    | some j => simp
    | none =>
      simp only
      have hidx1 : GHASH_CHUNK_LO + (min GHASH_CHUNK_MD data.length - GHASH_CHUNK_LO) =
          min GHASH_CHUNK_MD data.length := by omega
      rw [hidx1]
      rw [findLoop_spec data table seed GHASH_MASK_HI
        (min GHASH_CHUNK_HI data.length - min GHASH_CHUNK_MD data.length)
        (min GHASH_CHUNK_MD data.length) (by omega)]
      cases hf2 : (List.range' (min GHASH_CHUNK_MD data.length)
          (min GHASH_CHUNK_HI data.length - min GHASH_CHUNK_MD data.length)).find?
          (cutAt data table seed GHASH_MASK_HI) with
      | some j => simp
      | none =>
        have hidx2 : min GHASH_CHUNK_MD data.length +
            (min GHASH_CHUNK_HI data.length - min GHASH_CHUNK_MD data.length) =
            min GHASH_CHUNK_HI data.length := by omega
        simp [hidx2]

theorem find_bounds_of_lt {data table : List Nat} {seed : Option Nat}
    (h : GHASH_CHUNK_LO < data.length) :
    GHASH_CHUNK_LO ≤ find data table seed ∧
      find data table seed ≤ min GHASH_CHUNK_HI data.length := by
  rw [(find_characterization data table seed).2 h]
  have hLO : GHASH_CHUNK_LO = 2048 := rfl
  have hMD : GHASH_CHUNK_MD = 8192 := rfl
  have hHI : GHASH_CHUNK_HI = 65536 := rfl
  split
  · next j hj =>
    have hmem := List.mem_of_find?_eq_some hj
    rw [List.mem_range'_1] at hmem
    omega
  · split
    · next j hj =>
      have hmem := List.mem_of_find?_eq_some hj
      rw [List.mem_range'_1] at hmem
      omega
    · refine ⟨le_min (by rw [hLO, hHI]; omega) (by omega), le_refl _⟩

theorem find_le (data table : List Nat) (seed : Option Nat) :
    find data table seed ≤ data.length := by
  by_cases hl : data.length ≤ GHASH_CHUNK_LO
  · rw [(find_characterization data table seed).1 hl]
  · have := (@find_bounds_of_lt data table seed (by omega)).2
    have hHI : GHASH_CHUNK_HI = 65536 := rfl
    rw [hHI] at this
    omega

theorem find_pos (data table : List Nat) (seed : Option Nat) (h : 0 < data.length) :
    0 < find data table seed := by
  by_cases hl : data.length ≤ GHASH_CHUNK_LO
  · rw [(find_characterization data table seed).1 hl]
    exact h
  · have := (@find_bounds_of_lt data table seed (by omega)).1
    have hLO : GHASH_CHUNK_LO = 2048 := rfl
    omega

/-- Python slice `data[a:b]` (for `a ≤ b`; out-of-range ends clamp). -/
def pyslice (data : List Nat) (a b : Nat) : List Nat :=
  (data.drop a).take (b - a)

/-- The chunking loop of `split`, parametrized by the chunk start cursor
`p` (the source's `ck_start`).  The cutting window passed to `find` is
`data[ck_start:ct_idx]` with `ct_idx = min (ck_end + GHASH_CHUNK_HI)
len(data)`; since a Python slice clamps its upper end to the length, this
window always equals `data[p : p + GHASH_CHUNK_HI]`, i.e.
`(data.drop p).take GHASH_CHUNK_HI` (this also covers the first
iteration, where `ct_idx` starts as the plain `GHASH_CHUNK_HI`).  The
loop guard `ct_idx != ck_end` holds on entry (`GHASH_CHUNK_HI ≠ 0`) and,
for later iterations with `ck_end ≤ len(data)`, is equivalent to
`ck_end < len(data)`.  The `fuel` argument only makes the recursion
structural: each iteration advances the cursor, so any fuel above
`len(data) - p` never runs out (`split` passes `len(data) + 1`). -/
def splitFrom (data table : List Nat) (seed : Option Nat) :
    Nat → Nat → List (Nat × Nat × List Nat)
  | 0, _ => []
  | fuel + 1, p =>
    if p + find ((data.drop p).take GHASH_CHUNK_HI) table seed < data.length then
      (p, p + find ((data.drop p).take GHASH_CHUNK_HI) table seed,
        pyslice data p (p + find ((data.drop p).take GHASH_CHUNK_HI) table seed)) ::
        splitFrom data table seed fuel
          (p + find ((data.drop p).take GHASH_CHUNK_HI) table seed)
    else
      [(p, p + find ((data.drop p).take GHASH_CHUNK_HI) table seed,
        pyslice data p (p + find ((data.drop p).take GHASH_CHUNK_HI) table seed))]

/-- Split given data in normalized FastCDC chunks, returning
`(start, end, payload)` triples in generator order. -/
def split (data table : List Nat) (seed : Option Nat) : List (Nat × Nat × List Nat) :=
  splitFrom data table seed (data.length + 1) 0

theorem find_nil (table : List Nat) (seed : Option Nat) : find [] table seed = 0 := by
  simp [find, GHASH_CHUNK_LO]

/-- Joint structural facts about the chunk list produced from cursor `p`
with sufficient fuel. -/
theorem splitFrom_props (data table : List Nat) (seed : Option Nat) :
    ∀ fuel p, data.length - p < fuel → p ≤ data.length →
      splitFrom data table seed fuel p ≠ [] ∧
      (∀ c, (splitFrom data table seed fuel p).head? = some c → c.1 = p) ∧
      List.Chain' (fun a b => a.2.1 = b.1) (splitFrom data table seed fuel p) ∧
      (∀ c, (splitFrom data table seed fuel p).getLast? = some c → c.2.1 = data.length) ∧
      (∀ c ∈ splitFrom data table seed fuel p, c.2.2 = pyslice data c.1 c.2.1) ∧
      ((splitFrom data table seed fuel p).map (fun c => c.2.2)).flatten = data.drop p := by
  intro fuel
  induction fuel with
  | zero =>
    intro p hn
    omega
  | succ fuel ih =>
    intro p hn hp
    rw [splitFrom]
    by_cases hq : p + find ((data.drop p).take GHASH_CHUNK_HI) table seed < data.length
    · simp only [if_pos hq]
      have hfle : find ((data.drop p).take GHASH_CHUNK_HI) table seed ≤
          ((data.drop p).take GHASH_CHUNK_HI).length :=
        find_le _ table seed
      have hwlen : ((data.drop p).take GHASH_CHUNK_HI).length =
          min GHASH_CHUNK_HI (data.length - p) := by
        simp [List.length_take, List.length_drop]
      have hfpos : 0 < find ((data.drop p).take GHASH_CHUNK_HI) table seed := by
        refine find_pos _ table seed ?_
        rw [hwlen]
        have : GHASH_CHUNK_HI = 65536 := rfl
        omega
      set q := p + find ((data.drop p).take GHASH_CHUNK_HI) table seed with hqdef
      have hpq : p < q := by omega
      have hql : q ≤ data.length := by omega
      obtain ⟨ihne, ihhead, ihchain, ihlast, ihpay, ihjoin⟩ :=
        ih q (by omega) hql
      refine ⟨by simp, ?_, ?_, ?_, ?_, ?_⟩
      · intro c hc
        simp only [List.head?_cons, Option.some.injEq] at hc
        rw [← hc]
      · refine List.chain'_cons'.mpr ⟨?_, ihchain⟩
        intro b hb
        exact (ihhead b hb).symm
      · intro c hc
        obtain ⟨y, ys, hL⟩ := List.exists_cons_of_ne_nil ihne
        rw [hL, List.getLast?_cons_cons] at hc
        refine ihlast c ?_
        rw [hL]
        exact hc
      · intro c hc
        rcases List.mem_cons.mp hc with hc | hc
        · rw [hc]
        · exact ihpay c hc
      · simp only [List.map_cons, List.flatten_cons]
        rw [ihjoin]
        have hdq : data.drop q = (data.drop p).drop (q - p) := by
          rw [List.drop_drop]
          congr 1
          omega
        rw [hdq]
        simp only [pyslice]
        exact List.take_append_drop _ _
    · simp only [if_neg hq]
      have hfle : find ((data.drop p).take GHASH_CHUNK_HI) table seed ≤
          ((data.drop p).take GHASH_CHUNK_HI).length :=
        find_le _ table seed
      have hwlen : ((data.drop p).take GHASH_CHUNK_HI).length =
          min GHASH_CHUNK_HI (data.length - p) := by
        simp [List.length_take, List.length_drop]
      have hqe : p + find ((data.drop p).take GHASH_CHUNK_HI) table seed = data.length := by
        omega
      refine ⟨by simp, ?_, ?_, ?_, ?_, ?_⟩
      · intro c hc
        simp only [List.head?_cons, Option.some.injEq] at hc
        rw [← hc]
      · exact List.chain'_singleton _
      · intro c hc
        simp only [List.getLast?_singleton, Option.some.injEq] at hc
        rw [← hc, hqe]
      · intro c hc
        simp only [List.mem_singleton] at hc
        rw [hc]
      · simp only [List.map_cons, List.map_nil, List.flatten_cons, List.flatten_nil,
          List.append_nil]
        rw [hqe]
        simp only [pyslice]
        rw [List.take_of_length_le]
        simp only [List.length_drop]
        omega

/-- List semantics of `none.collection.i.onexlast`: at least one element, or
all elements except the last one.  A single-element iterable is returned
whole; otherwise the last element is withheld. -/
def onexlastList {α : Type} (l : List α) : List α :=
  if l.length ≤ 1 then l else l.dropLast

/-- One round of the `fastcdc` streaming loop plus the post-loop flush.
The stream is modelled by the full byte `content`, a cursor `pos`, and a
`sched` of per-call read caps: each `readinto` call on a buffer of size
`GHASH_CHUNK_HI - len(remain)` delivers
`min (sched head) (buffer size) (bytes left)` bytes (an exhausted `sched`
means the call fills the buffer when it can).  A delivery of zero bytes is
end of stream: the loop breaks and the leftover `remain`, when non-empty,
is split one last time.  Otherwise the work buffer is `remain` prepended
to the bytes read, `split` runs over it, `onexlast` withholds the last
chunk (unless it is the only one), the yielded chunks are shifted by the
running stream index `st_idx`, and the bytes after the last yielded chunk
become the next `remain`.  `fuel` only bounds the number of rounds; each
round reads at least one byte, so `content.length + 2` rounds are never
exhausted.  Only `(start, end)` pairs are collected. -/
def fastcdcLoop (table : List Nat) (seed : Option Nat) (content : List Nat) :
    Nat → List Nat → List Nat → Nat → Nat → List (Nat × Nat)
  | 0, _, _, _, _ => []
  | fuel + 1, sched, remain, pos, stIdx =>
    let bufSize := GHASH_CHUNK_HI - remain.length
    let cap := match sched with
      | [] => bufSize
      | c :: _ => min c bufSize
    let readBytes := min cap (content.length - pos)
    if readBytes = 0 then
      if remain.isEmpty then []
      else (split remain table seed).map (fun c => (stIdx + c.1, stIdx + c.2.1))
    else
      let workBuf := remain ++ (content.drop pos).take readBytes
      let chunks := onexlastList (split workBuf table seed)
      let ckIdx := (chunks.getLast?.map (fun c => c.2.1)).getD 0
      chunks.map (fun c => (stIdx + c.1, stIdx + c.2.1)) ++
        fastcdcLoop table seed content fuel sched.tail (workBuf.drop ckIdx)
          (pos + readBytes) (stIdx + ckIdx)

/-- Stream chunking entry point: boundary pairs produced by `fastcdc` over
`content` when the stream delivers reads capped by `sched`. -/
def fastcdc (content sched table : List Nat) (seed : Option Nat) : List (Nat × Nat) :=
  fastcdcLoop table seed content (content.length + 2) sched [] 0 0

/-- Every chunk except the last produced from cursor `p` has length between
the minimum and maximum chunk sizes. -/
theorem splitFrom_dropLast_bounds (data table : List Nat) (seed : Option Nat) :
    ∀ fuel p, data.length - p < fuel → p ≤ data.length →
      ∀ c ∈ (splitFrom data table seed fuel p).dropLast,
        GHASH_CHUNK_LO ≤ c.2.1 - c.1 ∧ c.2.1 - c.1 ≤ GHASH_CHUNK_HI := by
  intro fuel
  induction fuel with
  | zero =>
    intro p hn
    exact absurd hn (Nat.not_lt_zero _)
  | succ fuel ih =>
    intro p hn hp
    rw [splitFrom]
    by_cases hq : p + find ((data.drop p).take GHASH_CHUNK_HI) table seed < data.length
    · simp only [if_pos hq]
      have hfle : find ((data.drop p).take GHASH_CHUNK_HI) table seed ≤
          ((data.drop p).take GHASH_CHUNK_HI).length :=
        find_le _ table seed
      have hwlen : ((data.drop p).take GHASH_CHUNK_HI).length =
          min GHASH_CHUNK_HI (data.length - p) := by
        simp [List.length_take, List.length_drop]
      have hHI : GHASH_CHUNK_HI = 65536 := rfl
      have hLO : GHASH_CHUNK_LO = 2048 := rfl
      have hwgt : GHASH_CHUNK_LO < ((data.drop p).take GHASH_CHUNK_HI).length := by
        by_contra hcon
        have hshort := (find_characterization ((data.drop p).take GHASH_CHUNK_HI)
          table seed).1 (by omega)
        omega
      have hbounds := @find_bounds_of_lt ((data.drop p).take GHASH_CHUNK_HI)
        table seed hwgt
      have hq2 : p < p + find ((data.drop p).take GHASH_CHUNK_HI) table seed := by
        omega
      have hql : p + find ((data.drop p).take GHASH_CHUNK_HI) table seed ≤ data.length := by
        omega
      have hne := (splitFrom_props data table seed fuel
        (p + find ((data.drop p).take GHASH_CHUNK_HI) table seed) (by omega) hql).1
      obtain ⟨y, ys, hL⟩ := List.exists_cons_of_ne_nil hne
      rw [hL, List.dropLast_cons₂]
      intro c hc
      rcases List.mem_cons.mp hc with hc | hc
      · have h1 := hbounds.1
        have h2 : find ((data.drop p).take GHASH_CHUNK_HI) table seed ≤ GHASH_CHUNK_HI :=
          le_trans hbounds.2 (min_le_left _ _)
        rw [hc]
        simp only
        exact ⟨by omega, by omega⟩
      · have := ih (p + find ((data.drop p).take GHASH_CHUNK_HI) table seed)
          (by omega) hql c (by rw [hL]; exact hc)
        exact this
    · simp only [if_neg hq]
      intro c hc
      rw [List.dropLast_single] at hc
      exact absurd hc (List.not_mem_nil c)

/-- C2: `find` returns the data length on short input; otherwise it scans a
rolling gear hash from offset 2048 and returns the first index in
`[2048, min 8192 len)` whose hash masks to zero against `GHASH_MASK_LO`,
failing that the first index in `[min 8192 len, min 65536 len)` masking to
zero against `GHASH_MASK_HI`, and failing that `min 65536 len`. -/
theorem find_cut_characterization (data table : List Nat) (seed : Option Nat) :
    (data.length ≤ GHASH_CHUNK_LO → find data table seed = data.length) ∧
    (GHASH_CHUNK_LO < data.length →
      find data table seed =
        match (List.range' GHASH_CHUNK_LO
            (min GHASH_CHUNK_MD data.length - GHASH_CHUNK_LO)).find?
            (cutAt data table seed GHASH_MASK_LO) with
        | some j => j
        | none =>
          match (List.range' (min GHASH_CHUNK_MD data.length)
              (min GHASH_CHUNK_HI data.length - min GHASH_CHUNK_MD data.length)).find?
              (cutAt data table seed GHASH_MASK_HI) with
          | some j => j
          | none => min GHASH_CHUNK_HI data.length) :=
  find_characterization data table seed

/-- On the all-3 input over the one-entry table, the rolling hash at the
very first scanned index 2048 is zero, so it masks to zero. -/
theorem cutAt_replicate_2048 :
    cutAt (List.replicate 2049 3) [7] none GHASH_MASK_LO 2048 = true := by
  unfold cutAt
  rw [gacc_succ (by decide), gacc_of_le (by decide),
    List.getD_eq_getElem?_getD, List.getElem?_replicate, if_pos (by decide)]
  decide

/-- The first-phase scan of the all-3 2049-byte input finds its cut at the
opening index 2048. -/
theorem findScrut_replicate :
    (List.range' GHASH_CHUNK_LO
        (min GHASH_CHUNK_MD (List.replicate 2049 3).length - GHASH_CHUNK_LO)).find?
      (cutAt (List.replicate 2049 3) [7] none GHASH_MASK_LO) = some 2048 := by
  rw [List.length_replicate]
  rw [show min GHASH_CHUNK_MD 2049 - GHASH_CHUNK_LO = 1 from by decide]
  rw [List.range'_one]
  rw [show GHASH_CHUNK_LO = 2048 from rfl]
  exact List.find?_cons_of_pos _ cutAt_replicate_2048

theorem find_replicate_2049 : find (List.replicate 2049 3) [7] none = 2048 := by
  rw [(find_characterization (List.replicate 2049 3) [7] none).2
    (by rw [List.length_replicate]; decide)]
  rw [findScrut_replicate]

/-- Witness for C2: a 2049-byte input cuts at index 2048 (its masked hash is
zero there for the chosen table), and a 2-byte input is returned whole. -/
theorem find_cut_characterization_witness :
    find (List.replicate 2049 3) [7] none = 2048 ∧ find [5, 6] [7] none = 2 := by
  constructor
  · rw [(find_cut_characterization (List.replicate 2049 3) [7] none).2
      (by rw [List.length_replicate]; decide)]
    rw [findScrut_replicate]
  · rw [(find_cut_characterization [5, 6] [7] none).1 (by decide)]
    rfl

/-- C3: `split` yields finitely many `(start, end, payload)` triples exactly
partitioning the input: the first start is 0, consecutive chunks abut, the
last end is the data length, every payload is the corresponding slice, and
the concatenated payloads rebuild the data. -/
theorem split_partition_exact (data table : List Nat) (seed : Option Nat) :
    split data table seed ≠ [] ∧
    (∀ c, (split data table seed).head? = some c → c.1 = 0) ∧
    List.Chain' (fun a b => a.2.1 = b.1) (split data table seed) ∧
    (∀ c, (split data table seed).getLast? = some c → c.2.1 = data.length) ∧
    (∀ c ∈ split data table seed, c.2.2 = pyslice data c.1 c.2.1) ∧
    ((split data table seed).map (fun c => c.2.2)).flatten = data := by
  have h := splitFrom_props data table seed (data.length + 1) 0 (by omega) (by omega)
  simpa [split] using h

/-- Witness for C3: the two-byte input is one whole chunk; its recorded
start, end and payload satisfy the partition facts. -/
theorem split_partition_exact_witness :
    (0, 2, [5, 6]).1 = 0 ∧ (0, 2, [5, 6]).2.1 = [5, 6].length ∧
    (0, 2, [5, 6]).2.2 = pyslice [5, 6] 0 2 := by
  obtain ⟨h1, h2, h3, h4, h5, h6⟩ := split_partition_exact [5, 6] [7] none
  exact ⟨h2 (0, 2, [5, 6]) (by decide), h4 (0, 2, [5, 6]) (by decide),
    h5 (0, 2, [5, 6]) (by decide)⟩

/-- C4: on input longer than the minimum chunk size, every chunk from
`split` except possibly the final one has length between `GHASH_CHUNK_LO`
and `GHASH_CHUNK_HI`. -/
theorem split_nonfinal_chunk_bounds (data table : List Nat) (seed : Option Nat)
    (h : GHASH_CHUNK_LO < data.length) :
    ∀ c ∈ (split data table seed).dropLast,
      GHASH_CHUNK_LO ≤ c.2.1 - c.1 ∧ c.2.1 - c.1 ≤ GHASH_CHUNK_HI := by
  intro c hc
  exact splitFrom_dropLast_bounds data table seed (data.length + 1) 0
    (by omega) (by omega) c hc

/-- First step of `split` over the all-3 2049-byte input: the opening
chunk ends at the cut 2048 and the remaining chunks start from there. -/
theorem split_replicate_head :
    split (List.replicate 2049 3) [7] none =
      (0, 2048, pyslice (List.replicate 2049 3) 0 2048) ::
        splitFrom (List.replicate 2049 3) [7] none 2049 2048 := by
  rw [split]
  rw [splitFrom.eq_2]
  rw [List.length_replicate]
  rw [List.drop_zero, List.take_replicate]
  rw [show min GHASH_CHUNK_HI 2049 = 2049 from by decide]
  rw [find_replicate_2049]
  rw [if_pos (by decide : 0 + 2048 < 2049)]

/-- Witness for C4: a 2049-byte input splits into a 2048-byte chunk plus a
1-byte tail; the non-final chunk meets both bounds. -/
theorem split_nonfinal_chunk_bounds_witness :
    GHASH_CHUNK_LO < (List.replicate 2049 3).length ∧
    (GHASH_CHUNK_LO ≤ 2048 - 0 ∧ 2048 - 0 ≤ GHASH_CHUNK_HI) := by
  refine ⟨by rw [List.length_replicate]; decide, ?_⟩
  refine split_nonfinal_chunk_bounds (List.replicate 2049 3) [7] none
    (by rw [List.length_replicate]; decide)
    (0, 2048, pyslice (List.replicate 2049 3) 0 2048) ?_
  rw [split_replicate_head]
  have hne : splitFrom (List.replicate 2049 3) [7] none 2049 2048 ≠ [] :=
    (splitFrom_props (List.replicate 2049 3) [7] none 2049 2048
      (by rw [List.length_replicate]; decide) (by rw [List.length_replicate]; decide)).1
  obtain ⟨y, ys, hL⟩ := List.exists_cons_of_ne_nil hne
  rw [hL, List.dropLast_cons₂]
  exact List.mem_cons_self _ _

/-- C9: the two chunkers disagree on empty input: `split` of the empty
byte string yields the single zero-length chunk `(0, 0, b"")`, while
`fastcdc` over a stream whose first read delivers zero bytes yields no
chunks at all. -/
theorem empty_input_chunker_disagreement (table : List Nat) (seed : Option Nat)
    (sched : List Nat) :
    split [] table seed = [(0, 0, [])] ∧ fastcdc [] sched table seed = [] := by
  constructor
  · simp [split, splitFrom, find_nil, pyslice]
  · simp [fastcdc, fastcdcLoop]

/-- C1 (refuted): with a stream delivering one byte per read, `fastcdc`
emits each byte as its own chunk, because `onexlast` always yields the
first chunk of a round even when it is the round's only (hence still
unresolved) chunk; `split` over the whole two-byte buffer yields a single
chunk instead. -/
theorem fastcdc_short_read_divergence :
    fastcdc [0, 0] [1, 1] [0] none = [(0, 1), (1, 2)] ∧
    (split [0, 0] [0] none).map (fun c => (c.1, c.2.1)) = [(0, 2)] ∧
    fastcdc [0, 0] [1, 1] [0] none ≠
      (split [0, 0] [0] none).map (fun c => (c.1, c.2.1)) := by
  refine ⟨by decide, by decide, by decide⟩

/-- Byte string prepended to a leaf before being hashed
(`Merkle.LEAF_SEED = b"\x00"`). -/
def LEAF_SEED : List Nat := [0]

/-- Byte string prepended to a node before being hashed
(`Merkle.NODE_SEED = b"\x01"`). -/
def NODE_SEED : List Nat := [1]

/-- The Merkle hash tree of `none/hash/tree.py`.  `hashFn` models the
tree's reusable hash template: from a fresh copy of the template, feeding
bytes `bs` and taking the digest gives `hashFn bs` (the template itself is
never updated, so `hashFn []` is the digest of the template as stored).
`leaves` is the ordered deque of stored leaf digests. -/
structure Merkle where
  hashFn : List Nat → List Nat
  leaves : List (List Nat)

/-- `Merkle._digest_leaf`: copy the template, update with `LEAF_SEED`, then
with the payload, and digest. -/
def leafDigest (H : List Nat → List Nat) (data : List Nat) : List Nat :=
  H (LEAF_SEED ++ data)

/-- Construction from a fresh algorithm plus an optional initial iterable
(`Merkle.__init__` followed by `extend`, which maps `_digest_leaf`). -/
def Merkle.ofPayloads (H : List Nat → List Nat) (ps : List (List Nat)) : Merkle :=
  ⟨H, ps.map (leafDigest H)⟩

/-- `zip_longest(*([iter(stack)] * 2))`: consecutive elements paired left
to right; an odd count leaves the trailing element paired with `none`. -/
def toPairs {α : Type} : List α → List (α × Option α)
  | [] => []
  | [a] => [(a, none)]
  | a :: b :: rest => (a, some b) :: toPairs rest

/-- The per-pair node hash of `Merkle.digest`: update with `NODE_SEED`,
then `left`, then `right` when present. -/
def nodeHash (H : List Nat → List Nat) (l : List Nat) (r : Option (List Nat)) :
    List Nat :=
  match r with
  | none => H (NODE_SEED ++ l)
  | some rr => H (NODE_SEED ++ l ++ rr)

/-- One level of the bottom-up reduction inside `Merkle.digest`. -/
def digestLevel (H : List Nat → List Nat) (stack : List (List Nat)) :
    List (List Nat) :=
  (toPairs stack).map fun pr => nodeHash H pr.1 pr.2

theorem toPairs_length {α : Type} : ∀ l : List α, (toPairs l).length = (l.length + 1) / 2
  | [] => by simp [toPairs]
  | [_] => by simp [toPairs]
  | _ :: _ :: rest => by
    simp only [toPairs, List.length_cons]
    rw [toPairs_length rest]
    omega

theorem digestLevel_length (H : List Nat → List Nat) (stack : List (List Nat)) :
    (digestLevel H stack).length = (stack.length + 1) / 2 := by
  simp only [digestLevel, List.length_map]
  exact toPairs_length stack

/-- The `while len(stack) > 1` reduction loop of `Merkle.digest`. -/
def digestLoop (H : List Nat → List Nat) (stack : List (List Nat)) :
    List (List Nat) :=
  if h : 1 < stack.length then digestLoop H (digestLevel H stack) else stack
termination_by stack.length
decreasing_by
  rw [digestLevel_length]
  omega

/-- `Merkle.digest()` with no index: run the reduction loop over a copy of
the leaves, pop the rightmost element of the resulting stack, and fall
back to the digest of the untouched template when the stack is empty. -/
def Merkle.digest (t : Merkle) : List Nat :=
  (digestLoop t.hashFn t.leaves).getLast?.getD (t.hashFn [])

/-- Written after the spec's words for the root reduction: pair consecutive
digests left to right, parent is `Hash(0x01 || left || right)`, an
unpaired trailing digest is rehashed alone as `Hash(0x01 || left)`. -/
def specPairUp (H : List Nat → List Nat) : List (List Nat) → List (List Nat)
  | [] => []
  | [l] => [H (NODE_SEED ++ l)]
  | l :: r :: rest => H (NODE_SEED ++ (l ++ r)) :: specPairUp H rest

theorem specPairUp_length (H : List Nat → List Nat) :
    ∀ ds : List (List Nat), (specPairUp H ds).length = (ds.length + 1) / 2
  | [] => by simp [specPairUp]
  | [_] => by simp [specPairUp]
  | _ :: _ :: rest => by
    simp only [specPairUp, List.length_cons]
    rw [specPairUp_length H rest]
    omega

/-- Written after the spec's words: repeat the pairing until exactly one
digest remains; that digest is the root. -/
def specRoot (H : List Nat → List Nat) (ds : List (List Nat)) : List Nat :=
  if h : ds.length ≤ 1 then ds.headD (H [])
  else specRoot H (specPairUp H ds)
termination_by ds.length
decreasing_by
  rw [specPairUp_length]
  omega

theorem digestLevel_eq_specPairUp (H : List Nat → List Nat) :
    ∀ s : List (List Nat), digestLevel H s = specPairUp H s
  | [] => rfl
  | [_] => rfl
  | l :: r :: rest => by
    simp only [digestLevel, toPairs, List.map_cons, nodeHash, specPairUp,
      List.append_assoc]
    rw [← digestLevel_eq_specPairUp H rest]
    rfl

theorem digestLoop_eq_specRoot (H : List Nat → List Nat) :
    ∀ n s, s.length ≤ n → 1 ≤ s.length → digestLoop H s = [specRoot H s] := by
  intro n
  induction n with
  | zero =>
    intro s hn h1
    omega
  | succ n ih =>
    intro s hn h1
    by_cases hgt : 1 < s.length
    · rw [digestLoop, dif_pos hgt, specRoot, dif_neg (by omega)]
      rw [digestLevel_eq_specPairUp]
      refine ih (specPairUp H s) ?_ ?_
      · rw [specPairUp_length]
        omega
      · rw [specPairUp_length]
        omega
    · have hlen : s.length = 1 := by omega
      obtain ⟨a, rfl⟩ := List.length_eq_one.mp hlen
      rw [digestLoop, dif_neg (by simp), specRoot, dif_pos (by simp)]
      rfl

/-- C5: with at least two leaves, `digest()` computes the root by the
spec's repeated bottom-up reduction: consecutive digests paired left to
right into `Hash(0x01 || left || right)`, an unpaired trailing digest
rehashed alone as `Hash(0x01 || left)`, repeated until one digest
remains. -/
theorem merkle_digest_root_reduction (t : Merkle) (h : 2 ≤ t.leaves.length) :
    t.digest = specRoot t.hashFn t.leaves := by
  rw [Merkle.digest,
    digestLoop_eq_specRoot t.hashFn t.leaves.length t.leaves (le_refl _) (by omega)]
  rfl

/-- Witness for C5 on a concrete two-leaf tree. -/
theorem merkle_digest_root_reduction_witness :
    2 ≤ (Merkle.mk (fun _ => [7]) [[1], [2]]).leaves.length ∧
    (Merkle.mk (fun _ => [7]) [[1], [2]]).digest =
      specRoot (fun _ => [7]) [[1], [2]] :=
  ⟨by decide, merkle_digest_root_reduction (Merkle.mk (fun _ => [7]) [[1], [2]]) (by decide)⟩

/-- C6: a tree built from a fresh hash algorithm has, with zero leaves, the
algorithm's digest of empty input as its root, and with exactly one leaf,
that leaf's stored digest `Hash(0x00 || payload)` unchanged. -/
theorem merkle_digest_degenerate (H : List Nat → List Nat) (p : List Nat) :
    (Merkle.ofPayloads H []).digest = H [] ∧
    (Merkle.ofPayloads H [p]).digest = leafDigest H p := by
  constructor
  · rw [Merkle.digest, digestLoop]
    simp [Merkle.ofPayloads]
  · rw [Merkle.digest, digestLoop]
    simp [Merkle.ofPayloads]

/-- Python-style index normalization shared by deque get/set/delete: a
negative index counts from the right; the result is valid only inside
`[0, n)` after adjustment, otherwise the access raises `IndexError`
(modelled as `none`). -/
def pyNorm (n : Nat) (i : Int) : Option Nat :=
  let j := if i < 0 then i + n else i
  if 0 ≤ j ∧ j < n then some j.toNat else none

/-- `Merkle.__getitem__`: the stored digest of the leaf at the index. -/
def Merkle.getI (t : Merkle) (i : Int) : Option (List Nat) :=
  (pyNorm t.leaves.length i).map fun j => t.leaves.getD j []

/-- `Merkle.__setitem__`: replace the leaf at the index with the digest of
the supplied payload. -/
def Merkle.setI (t : Merkle) (i : Int) (data : List Nat) : Option Merkle :=
  (pyNorm t.leaves.length i).map fun j =>
    ⟨t.hashFn, t.leaves.set j (leafDigest t.hashFn data)⟩

/-- `Merkle.__delitem__`: remove the leaf at the index. -/
def Merkle.delI (t : Merkle) (i : Int) : Option Merkle :=
  (pyNorm t.leaves.length i).map fun j => ⟨t.hashFn, t.leaves.eraseIdx j⟩

/-- `Merkle.pop(i)` with an index: read the leaf, then delete it. -/
def Merkle.popI (t : Merkle) (i : Int) : Option (List Nat × Merkle) :=
  match t.getI i, t.delI i with
  | some v, some t2 => some (v, t2)
  | _, _ => none

/-- `Merkle.digest(i)` with an index returns `self[i]`. -/
def Merkle.digestI (t : Merkle) (i : Int) : Option (List Nat) :=
  t.getI i

/-- `deque.insert` semantics: a negative index counts from the right, and
the adjusted index is clamped into `[0, n]` — out-of-range inserts land at
the nearest end instead of raising. -/
def listInsertPy {α : Type} (l : List α) (i : Int) (x : α) : List α :=
  let j := if i < 0 then i + l.length else i
  let k := (max 0 (min j (l.length : Int))).toNat
  l.take k ++ x :: l.drop k

/-- `Merkle.insert`: insert the digest of the payload at the index, with
`deque.insert` clamping. -/
def Merkle.insert (t : Merkle) (i : Int) (data : List Nat) : Merkle :=
  ⟨t.hashFn, listInsertPy t.leaves i (leafDigest t.hashFn data)⟩

/-- Counterexample to C7 as stated: on a one-leaf tree, `insert` at the
out-of-range indices 7 and -7 does not fail with an index error — it
silently clamps, appending or prepending the new leaf. -/
theorem merkle_insert_out_of_range_clamps :
    (Merkle.insert ⟨fun _ => [], [[5]]⟩ 7 [9]).leaves = [[5], []] ∧
    (Merkle.insert ⟨fun _ => [], [[5]]⟩ (-7) [9]).leaves = [[], [5]] := by
  constructor <;> rfl

/-- C7 (amended): for every index outside `[-n, n)`, the get, set, delete,
pop and digest operations fail with an index-out-of-range error and never
clamp or wrap; `insert`, however, does not fail — per `deque.insert` it
clamps the index, prepending the leaf below `-n` and appending at or above
`n`. -/
theorem merkle_index_out_of_range (t : Merkle) (i : Int) (d : List Nat)
    (h : i < -(t.leaves.length : Int) ∨ (t.leaves.length : Int) ≤ i) :
    t.getI i = none ∧ t.setI i d = none ∧ t.delI i = none ∧
    t.popI i = none ∧ t.digestI i = none ∧
    (i < -(t.leaves.length : Int) →
      (t.insert i d).leaves = leafDigest t.hashFn d :: t.leaves) ∧
    ((t.leaves.length : Int) ≤ i →
      (t.insert i d).leaves = t.leaves ++ [leafDigest t.hashFn d]) := by
  have hnorm : pyNorm t.leaves.length i = none := by
    simp only [pyNorm]
    by_cases hi : i < 0
    · rw [if_pos hi, if_neg (by omega)]
    · rw [if_neg hi, if_neg (by omega)]
  refine ⟨?_, ?_, ?_, ?_, ?_, ?_, ?_⟩
  · simp [Merkle.getI, hnorm]
  · simp [Merkle.setI, hnorm]
  · simp [Merkle.delI, hnorm]
  · simp [Merkle.popI, Merkle.getI, hnorm]
  · simp [Merkle.digestI, Merkle.getI, hnorm]
  · intro hlt
    simp only [Merkle.insert, listInsertPy]
    rw [if_pos (by omega : i < 0)]
    rw [show max 0 (min (i + (t.leaves.length : Int)) (t.leaves.length : Int)) = 0 by
      omega]
    simp
  · intro hge
    simp only [Merkle.insert, listInsertPy]
    rw [if_neg (by omega : ¬ i < 0)]
    rw [show max 0 (min i (t.leaves.length : Int)) = (t.leaves.length : Int) by omega]
    rw [Int.toNat_natCast]
    simp

/-- Witness for C7 (amended) on a one-leaf tree with index 7. -/
theorem merkle_index_out_of_range_witness :
    ((((Merkle.mk (fun _ => []) [[5]]).leaves.length : Int) ≤ 7) ∧
    Merkle.getI ⟨fun _ => [], [[5]]⟩ 7 = none ∧
    (Merkle.insert ⟨fun _ => [], [[5]]⟩ 7 [9]).leaves =
      [[5]] ++ [leafDigest (fun _ => []) [9]]) := by
  refine ⟨by decide, ?_, ?_⟩
  · exact (merkle_index_out_of_range ⟨fun _ => [], [[5]]⟩ 7 [9]
      (Or.inr (by decide))).1
  · exact (merkle_index_out_of_range ⟨fun _ => [], [[5]]⟩ 7 [9]
      (Or.inr (by decide))).2.2.2.2.2.2 (by decide)

/-- `Merkle.append`: add the digest of the payload on the right. -/
def Merkle.append (t : Merkle) (d : List Nat) : Merkle :=
  ⟨t.hashFn, t.leaves ++ [leafDigest t.hashFn d]⟩

/-- `Merkle.extend`: append the digests of all payloads of the iterable. -/
def Merkle.extend (t : Merkle) (ds : List (List Nat)) : Merkle :=
  ⟨t.hashFn, t.leaves ++ ds.map (leafDigest t.hashFn)⟩

/-- `Merkle.update` delegates to `append`. -/
def Merkle.update (t : Merkle) (d : List Nat) : Merkle :=
  t.append d

/-- `Merkle.clear`: remove all leaves. -/
def Merkle.clear (t : Merkle) : Merkle :=
  ⟨t.hashFn, []⟩

/-- `Merkle.pop()` with no index: remove and return the rightmost leaf,
raising (`none`) on an empty tree. -/
def Merkle.popLast (t : Merkle) : Option (List Nat × Merkle) :=
  match t.leaves.getLast? with
  | some v => some (v, ⟨t.hashFn, t.leaves.dropLast⟩)
  | none => none

/-- `Merkle.copy`: a new tree sharing the algorithm template with an
independent copy of the leaf sequence (the aliasing content of this is
captured by the heap model below). -/
def Merkle.copy (t : Merkle) : Merkle :=
  ⟨t.hashFn, t.leaves⟩

/-- The mutating operations of the tree, reified so that a statement can
quantify over an arbitrary subsequent mutation. -/
inductive Mut where
  | append (d : List Nat)
  | extend (ds : List (List Nat))
  | insert (i : Int) (d : List Nat)
  | set (i : Int) (d : List Nat)
  | del (i : Int)
  | pop
  | popAt (i : Int)
  | clear
  | update (d : List Nat)

/-- Effect of one mutating operation on a stored leaf sequence; an
operation that raises (out-of-range index, pop of an empty deque) leaves
the sequence unchanged, since the exception fires before any write. -/
def mutateLeaves (H : List Nat → List Nat) (m : Mut) (l : List (List Nat)) :
    List (List Nat) :=
  match m with
  | .append d => l ++ [leafDigest H d]
  | .extend ds => l ++ ds.map (leafDigest H)
  | .insert i d => listInsertPy l i (leafDigest H d)
  | .set i d =>
    match pyNorm l.length i with
    | some j => l.set j (leafDigest H d)
    | none => l
  | .del i =>
    match pyNorm l.length i with
    | some j => l.eraseIdx j
    | none => l
  | .pop => l.dropLast
  | .popAt i =>
    match pyNorm l.length i with
    | some j => l.eraseIdx j
    | none => l
  | .clear => []
  | .update d => l ++ [leafDigest H d]

/-- Heap of leaf deques: each tree's `_leaves` lives in its own cell, so
aliasing between trees is observable. -/
abbrev Heap := List (List (List Nat))

/-- Run one mutating operation on the tree whose leaves live in cell `r`:
only that cell is written. -/
def applyMut (H : List Nat → List Nat) (heap : Heap) (r : Nat) (m : Mut) : Heap :=
  heap.set r (mutateLeaves H m (heap.getD r []))

/-- `Merkle.copy` in the heap model: allocate a fresh cell holding a copy
of cell `r`'s leaf sequence and return its address. -/
def copyAlloc (heap : Heap) (r : Nat) : Heap × Nat :=
  (heap ++ [heap.getD r []], heap.length)

/-- C8: after `a = t.copy()`, the copy starts with an identical leaf
sequence, any mutation of `a` leaves `t`'s leaf sequence — and hence
`t.digest()` — unchanged, and symmetrically any mutation of `t` leaves
`a`'s leaf sequence unchanged: the copy owns an independent cell. -/
theorem merkle_copy_independence (H : List Nat → List Nat) (heap : Heap) (r : Nat)
    (hr : r < heap.length) (m : Mut) :
    ((copyAlloc heap r).1.getD (copyAlloc heap r).2 [] = heap.getD r []) ∧
    ((applyMut H (copyAlloc heap r).1 (copyAlloc heap r).2 m).getD r [] =
      heap.getD r []) ∧
    (Merkle.digest
        ⟨H, (applyMut H (copyAlloc heap r).1 (copyAlloc heap r).2 m).getD r []⟩ =
      Merkle.digest ⟨H, heap.getD r []⟩) ∧
    ((applyMut H (copyAlloc heap r).1 r m).getD (copyAlloc heap r).2 [] =
      (copyAlloc heap r).1.getD (copyAlloc heap r).2 []) := by
  simp only [copyAlloc, applyMut]
  have hcell : (heap ++ [heap.getD r []]).getD heap.length [] = heap.getD r [] := by
    rw [List.getD_eq_getElem?_getD, List.getElem?_append_right (le_refl _)]
    simp
  have hsame : ∀ v, ((heap ++ [heap.getD r []]).set heap.length v).getD r [] =
      heap.getD r [] := by
    intro v
    rw [List.getD_eq_getElem?_getD, List.getElem?_set_ne (by omega)]
    rw [List.getElem?_append_left (by omega)]
    rw [← List.getD_eq_getElem?_getD]
  have hsame2 : ∀ v, ((heap ++ [heap.getD r []]).set r v).getD heap.length [] =
      (heap ++ [heap.getD r []]).getD heap.length [] := by
    intro v
    rw [List.getD_eq_getElem?_getD, List.getElem?_set_ne (by omega)]
    rw [← List.getD_eq_getElem?_getD]
  refine ⟨hcell, ?_, ?_, ?_⟩
  · rw [hsame]
  · rw [hsame]
  · rw [hsame2]

/-- Witness for C8: one-cell heap holding a single-leaf tree, mutated by an
append after copying. -/
theorem merkle_copy_independence_witness :
    (0 < ([[[1]]] : Heap).length) ∧
    ((applyMut (fun _ => []) (copyAlloc [[[1]]] 0).1 (copyAlloc [[[1]]] 0).2
        (Mut.append [2])).getD 0 [] = ([[[1]]] : Heap).getD 0 []) :=
  ⟨by decide,
    (merkle_copy_independence (fun _ => []) [[[1]]] 0 (by decide) (Mut.append [2])).2.1⟩

/-- Trees reachable through the public operations: construction from an
initial payload iterable, then any sequence of append, extend, update,
insert, index set, index delete, pop (with or without index), clear and
copy. -/
inductive Reachable (H : List Nat → List Nat) : Merkle → Prop where
  | init (ps : List (List Nat)) : Reachable H (Merkle.ofPayloads H ps)
  | append (t : Merkle) (d : List Nat) : Reachable H t → Reachable H (t.append d)
  | extend (t : Merkle) (ds : List (List Nat)) : Reachable H t → Reachable H (t.extend ds)
  | update (t : Merkle) (d : List Nat) : Reachable H t → Reachable H (t.update d)
  | insert (t : Merkle) (i : Int) (d : List Nat) : Reachable H t →
      Reachable H (t.insert i d)
  | set (t : Merkle) (i : Int) (d : List Nat) (t2 : Merkle) : Reachable H t →
      t.setI i d = some t2 → Reachable H t2
  | del (t : Merkle) (i : Int) (t2 : Merkle) : Reachable H t →
      t.delI i = some t2 → Reachable H t2
  | popAt (t : Merkle) (i : Int) (v : List Nat) (t2 : Merkle) : Reachable H t →
      t.popI i = some (v, t2) → Reachable H t2
  | pop (t : Merkle) (v : List Nat) (t2 : Merkle) : Reachable H t →
      t.popLast = some (v, t2) → Reachable H t2
  | clear (t : Merkle) : Reachable H t → Reachable H t.clear
  | copy (t : Merkle) : Reachable H t → Reachable H t.copy

/-- C10: invariant of every reachable tree, for a hash whose digests all
have length `ds`: the tree keeps the algorithm it was built with, and every
stored leaf is a byte string of length `ds` equal to
`Hash(LEAF_SEED ++ payload)` for some raw payload — no operation ever
stores a raw payload directly. -/
theorem merkle_leaf_invariant (H : List Nat → List Nat) (ds : Nat)
    (hH : ∀ x, (H x).length = ds) (t : Merkle) (ht : Reachable H t) :
    t.hashFn = H ∧ ∀ l ∈ t.leaves, l.length = ds ∧ ∃ p, l = leafDigest H p := by
  induction ht with
  | init ps =>
    refine ⟨rfl, ?_⟩
    intro l hl
    simp only [Merkle.ofPayloads, List.mem_map] at hl
    obtain ⟨p, _, rfl⟩ := hl
    exact ⟨hH _, p, rfl⟩
  | append t d ht ih =>
    refine ⟨ih.1, ?_⟩
    intro l hl
    simp only [Merkle.append, ih.1, List.mem_append, List.mem_singleton] at hl
    rcases hl with hl | rfl
    · exact ih.2 l hl
    · exact ⟨hH _, d, rfl⟩
  | extend t ed ht ih =>
    refine ⟨ih.1, ?_⟩
    intro l hl
    simp only [Merkle.extend, ih.1, List.mem_append, List.mem_map] at hl
    rcases hl with hl | ⟨p, _, rfl⟩
    · exact ih.2 l hl
    · exact ⟨hH _, p, rfl⟩
  | update t d ht ih =>
    refine ⟨ih.1, ?_⟩
    intro l hl
    simp only [Merkle.update, Merkle.append, ih.1, List.mem_append,
      List.mem_singleton] at hl
    rcases hl with hl | rfl
    · exact ih.2 l hl
    · exact ⟨hH _, d, rfl⟩
  | insert t i d ht ih =>
    refine ⟨ih.1, ?_⟩
    intro l hl
    simp only [Merkle.insert, ih.1, listInsertPy, List.mem_append,
      List.mem_cons] at hl
    rcases hl with hl | rfl | hl
    · exact ih.2 l (List.take_subset _ _ hl)
    · exact ⟨hH _, d, rfl⟩
    · exact ih.2 l (List.drop_subset _ _ hl)
  | set t i d t2 ht heq ih =>
    obtain ⟨j, _, rfl⟩ := Option.map_eq_some'.mp heq
    refine ⟨ih.1, ?_⟩
    intro l hl
    simp only at hl
    rcases List.mem_or_eq_of_mem_set hl with hl | rfl
    · exact ih.2 l hl
    · rw [ih.1]
      exact ⟨hH _, d, rfl⟩
  | del t i t2 ht heq ih =>
    obtain ⟨j, _, rfl⟩ := Option.map_eq_some'.mp heq
    exact ⟨ih.1, fun l hl => ih.2 l (List.mem_of_mem_eraseIdx hl)⟩
  | popAt t i v t2 ht heq ih =>
    simp only [Merkle.popI] at heq
    cases hg : t.getI i with
    | none =>
      rw [hg] at heq
      simp at heq
    | some v2 =>
      cases hd : t.delI i with
      | none =>
        rw [hg, hd] at heq
        simp at heq
      | some t3 =>
        rw [hg, hd] at heq
        simp only [Option.some.injEq, Prod.mk.injEq] at heq
        obtain ⟨j, _, rfl⟩ := Option.map_eq_some'.mp hd
        rw [← heq.2]
        exact ⟨ih.1, fun l hl => ih.2 l (List.mem_of_mem_eraseIdx hl)⟩
  | pop t v t2 ht heq ih =>
    simp only [Merkle.popLast] at heq
    cases hg : t.leaves.getLast? with
    | none =>
      rw [hg] at heq
      simp at heq
    | some v2 =>
      rw [hg] at heq
      simp only [Option.some.injEq, Prod.mk.injEq] at heq
      rw [← heq.2]
      exact ⟨ih.1, fun l hl => ih.2 l (List.dropLast_subset _ hl)⟩
  | clear t ht ih =>
    exact ⟨ih.1, fun l hl => absurd hl (List.not_mem_nil l)⟩
  | copy t ht ih =>
    exact ih

/-- Witness for C10: the constant length-1 hash and the one-payload tree. -/
theorem merkle_leaf_invariant_witness :
    (∀ x : List Nat, ((fun _ => [0]) x : List Nat).length = 1) ∧
    ((Merkle.ofPayloads (fun _ => [0]) [[3]]).hashFn = (fun _ => [0]) ∧
      ∀ l ∈ (Merkle.ofPayloads (fun _ => [0]) [[3]]).leaves,
        l.length = 1 ∧ ∃ p, l = leafDigest (fun _ => [0]) p) :=
  ⟨fun _ => rfl,
    merkle_leaf_invariant (fun _ => [0]) 1 (fun _ => rfl) _ (Reachable.init [[3]])⟩
